import Mathlib

set_option maxRecDepth 100000

/-!
Verification of the `cixtor/middleware` HTTP routing library.

The development shallowly embeds the routing core of the repository:

* `trie.go` — the character-level trie `privTrie` with its `Insert` and
  `Search` operations (named parameters introduced by `:`, separator `/`).
* `middleware.go` — the `Node`-list `dispatcher` together with `handle`,
  `urlParams`, `remoteAddr` and `inArray`.
* `endpoint.go` / the `folder` type — `parseEndpoint`, `endpoint.Match`,
  `folder.IsParam`, `folder.IsGlob`, `folder.Name`, including a model of
  Go's lexical `path.Clean`.
* the middleware composer — `compose` and `Use`.

Go strings are modelled as lists of bytes (`List Nat`) for the byte-indexed
trie code and as lists of characters (`List Char`) for the segment-level
code; all concrete inputs used below are ASCII, where the two coincide with
Go's byte strings.  Go maps are modelled as association lists with
overwrite-on-assign semantics; Go's `nil` results are modelled with
`Option`.  Loops are translated to recursive functions; functions whose Go
loop advances a cursor non-uniformly are defined by well-founded recursion
and accompanied by fuel-indexed twins (`...Fuel`) proved equal to them,
which the kernel can evaluate on concrete inputs.
-/

namespace middleware

/-- Go `trie.go`: `var nps byte = ':'` — the Named Parameter Symbol. -/
def nps : Nat := (':').toNat

/-- Go `endpoint.go`: `var sep string = "/"`; the trie code only ever uses
its first (and only) byte `sep[0]`, modelled here. -/
def sepB : Nat := ('/').toNat

/-- Byte string of an ASCII Lean string literal (Go strings are byte
arrays; for the ASCII inputs used in this development the UTF-8 bytes are
exactly the code points). -/
def bytes (s : String) : List Nat := s.data.map Char.toNat

/-- Go `trie.go`: `privTrieNode` — children keyed by byte, a parameter
name for the reserved `:` child, and an end-of-endpoint flag.  The Go
`map[byte]*privTrieNode` is modelled as an association list. -/
inductive privTrieNode : Type where
  | mk (children : List (Nat × privTrieNode)) (paramKey : List Nat) (isTheEnd : Bool)

/-- Children of a trie node. -/
def privTrieNode.children : privTrieNode → List (Nat × privTrieNode)
  | .mk c _ _ => c

/-- Parameter name stored on a trie node. -/
def privTrieNode.paramKey : privTrieNode → List Nat
  | .mk _ p _ => p

/-- End-of-endpoint flag of a trie node. -/
def privTrieNode.isTheEnd : privTrieNode → Bool
  | .mk _ _ e => e

/-- Go `newPrivTrieNode()`: an empty node. -/
def newPrivTrieNode : privTrieNode := .mk [] [] false

/-- Map read `node.children[char]` (`nil` becomes `none`). -/
def lookupChild : List (Nat × privTrieNode) → Nat → Option privTrieNode
  | [], _ => none
  | (k, t) :: r, c => if k = c then some t else lookupChild r c

/-- Map write `node.children[char] = t` (overwrite or add the key). -/
def updateChild : List (Nat × privTrieNode) → Nat → privTrieNode → List (Nat × privTrieNode)
  | [], c, u => [(c, u)]
  | (k, t) :: r, c, u => if k = c then (c, u) :: r else (k, t) :: updateChild r c u

theorem length_dropWhile_le {α : Type} (p : α → Bool) (l : List α) :
    (l.dropWhile p).length ≤ l.length := by
  induction l with
  | nil => simp [List.dropWhile]
  | cons a r ih =>
    by_cases h : p a
    · simp only [List.dropWhile, h]
      exact Nat.le_succ_of_le ih
    · simp only [List.dropWhile, h]
      simp

/-- Go `trie.go`, `privTrie.Insert`, lines 69–91, acting on the root node.
Each loop iteration reads the byte `char` at the cursor; if it is `nps`
the parameter name (the bytes strictly after `:` up to the next `/`) is
collected and the cursor jumps past it (`i += len(param)`); the child for
`char` is created if missing — and only then is its `paramKey` set —
and the walk descends.  After the loop the final node is marked terminal.
The cursor jump makes the recursion drop `param.length` extra bytes, so
the definition recurses on the length of the remaining byte list. -/
def insertAux : privTrieNode → List Nat → privTrieNode
  | .mk ch pk _, [] => .mk ch pk true
  | .mk ch pk e, c :: rest =>
    let param := if c = nps then rest.takeWhile (fun b => b != sepB) else []
    let remaining := if c = nps then rest.dropWhile (fun b => b != sepB) else rest
    let child :=
      match lookupChild ch c with
      | some u => u
      | none => privTrieNode.mk [] param false
    privTrieNode.mk (updateChild ch c (insertAux child remaining)) pk e
termination_by _ cs => cs.length
decreasing_by
  simp only [List.length_cons]
  by_cases h : c = nps
  · rw [dif_pos h]
    exact Nat.lt_succ_of_le (length_dropWhile_le _ _)
  · rw [dif_neg h]
    exact Nat.lt_succ_self _

/-- Parameter bindings: the Go `map[string]string` of `Search`, as an
association list in first-binding order. -/
abbrev Params := List (List Nat × List Nat)

/-- Go map assignment `params[key] = value`: overwrite the key if present,
otherwise add it. -/
def setParam : Params → List Nat → List Nat → Params
  | [], k, v => [(k, v)]
  | (k', v') :: r, k, v => if k' = k then (k, v) :: r else (k', v') :: setParam r k v

theorem lookupChild_sizeOf (l : List (Nat × privTrieNode)) (c : Nat) (t : privTrieNode)
    (h : lookupChild l c = some t) : sizeOf t < sizeOf l := by
  induction l with
  | nil => simp [lookupChild] at h
  | cons a r ih =>
    obtain ⟨k, u⟩ := a
    simp only [lookupChild] at h
    by_cases hk : k = c
    · rw [if_pos hk] at h
      cases h
      simp
      omega
    · rw [if_neg hk] at h
      have := ih h
      simp
      omega

/-- Go `trie.go`, `privTrie.Search`, lines 93–164, acting on the root
node.  Per iteration: a literal child for the current byte is tried first;
otherwise, if a `:` child exists, the run of bytes from the cursor up to
(but excluding) the next `/` is bound to that child's `paramKey` and the
cursor jumps past it (`i += len(value) - 1` followed by the loop's `i++`);
otherwise the search fails with `(false, nil)`.  After the loop the final
node's `isTheEnd` and the accumulated bindings are returned.  Both
recursive calls descend into a child node, so the recursion is on the
size of the node. -/
def searchAux : privTrieNode → List Nat → Params → Bool × Params
  | .mk _ _ e, [], ps => (e, ps)
  | .mk ch _ _, c :: rest, ps =>
    match h1 : lookupChild ch c with
    | some child => searchAux child rest ps
    | none =>
      match h2 : lookupChild ch nps with
      | some pchild =>
        let value := (c :: rest).takeWhile (fun b => b != sepB)
        let remaining := (c :: rest).dropWhile (fun b => b != sepB)
        searchAux pchild remaining (setParam ps pchild.paramKey value)
      | none => (false, [])
termination_by t _ _ => sizeOf t
decreasing_by
  · have := lookupChild_sizeOf ch c child h1
    simp
    omega
  · have := lookupChild_sizeOf ch nps pchild h2
    simp
    omega

/-- Go `privTrie`: a wrapper holding the root node. -/
structure privTrie : Type where
  root : privTrieNode

/-- Go `newPrivTrie()`. -/
def newPrivTrie : privTrie := ⟨newPrivTrieNode⟩

/-- Go `privTrie.Insert(endpoint)`. -/
def privTrie.Insert (t : privTrie) (endpoint : List Nat) : privTrie :=
  ⟨insertAux t.root endpoint⟩

/-- Go `privTrie.Search(endpoint)`; the `params` map starts empty. -/
def privTrie.Search (t : privTrie) (endpoint : List Nat) : Bool × Params :=
  searchAux t.root endpoint []

/-- The trie obtained by registering a list of patterns in order. -/
def buildTrie (patterns : List (List Nat)) : privTrie :=
  patterns.foldl privTrie.Insert newPrivTrie

/-- Fuel-indexed twin of `insertAux`: the fuel bounds the number of loop
iterations (each iteration consumes at least one byte of the endpoint),
and when it runs out the node is returned unchanged.  `insertAux_eq_fuel`
shows the branch is never taken once the fuel covers the endpoint length;
the twin is structurally recursive, so the kernel can evaluate it. -/
def insertFuel : Nat → privTrieNode → List Nat → privTrieNode
  | _, .mk ch pk _, [] => .mk ch pk true
  | 0, t, _ :: _ => t
  | n + 1, .mk ch pk e, c :: rest =>
    let param := if c = nps then rest.takeWhile (fun b => b != sepB) else []
    let remaining := if c = nps then rest.dropWhile (fun b => b != sepB) else rest
    let child :=
      match lookupChild ch c with
      | some u => u
      | none => privTrieNode.mk [] param false
    privTrieNode.mk (updateChild ch c (insertFuel n child remaining)) pk e

/-- With enough fuel for the endpoint length, `insertFuel` computes
`insertAux`. -/
theorem insertAux_eq_fuel : ∀ (n : Nat) (t : privTrieNode) (cs : List Nat),
    cs.length ≤ n → insertAux t cs = insertFuel n t cs := by
  intro n
  induction n with
  | zero =>
    intro t cs h
    obtain ⟨ch, pk, e⟩ := t
    cases cs with
    | nil => simp [insertAux, insertFuel]
    | cons c rest => simp at h
  | succ n ih =>
    intro t cs h
    obtain ⟨ch, pk, e⟩ := t
    cases cs with
    | nil => simp [insertAux, insertFuel]
    | cons c rest =>
      simp only [insertAux, insertFuel]
      have hrem : (if c = nps then rest.dropWhile (fun b => b != sepB) else rest).length ≤ n := by
        by_cases hc : c = nps
        · rw [if_pos hc]
          have := length_dropWhile_le (fun b => b != sepB) rest
          simp only [List.length_cons] at h
          omega
        · rw [if_neg hc]
          simp only [List.length_cons] at h
          omega
      rw [ih _ _ hrem]

/-- Fuel-indexed twin of `searchAux`: the fuel bounds the number of loop
iterations and `none` reports that it ran out.  Every iteration of the Go
loop moves to a child node, so `searchAux_eq_fuel` shows fuel `sizeOf t`
always suffices — this is the termination argument for `Search`. -/
def searchFuel : Nat → privTrieNode → List Nat → Params → Option (Bool × Params)
  | _, .mk _ _ e, [], ps => some (e, ps)
  | 0, _, _ :: _, _ => none
  | n + 1, .mk ch _ _, c :: rest, ps =>
    match lookupChild ch c with
    | some child => searchFuel n child rest ps
    | none =>
      match lookupChild ch nps with
      | some pchild =>
        searchFuel n pchild ((c :: rest).dropWhile (fun b => b != sepB))
          (setParam ps pchild.paramKey ((c :: rest).takeWhile (fun b => b != sepB)))
      | none => some (false, [])

/-- With fuel at least `sizeOf t`, `searchFuel` never runs out and
computes `searchAux`: the scan of `Search` halts within `sizeOf t`
iterations on every trie and every input. -/
theorem searchAux_eq_fuel : ∀ (n : Nat) (t : privTrieNode) (cs : List Nat) (ps : Params),
    sizeOf t ≤ n → searchFuel n t cs ps = some (searchAux t cs ps) := by
  intro n
  induction n with
  | zero =>
    intro t cs ps h
    obtain ⟨ch, pk, e⟩ := t
    simp at h
  | succ n ih =>
    intro t cs ps h
    obtain ⟨ch, pk, e⟩ := t
    cases cs with
    | nil => simp [searchAux, searchFuel]
    | cons c rest =>
      have hch : sizeOf ch < n + 1 := by
        simp at h
        omega
      simp only [searchAux, searchFuel]
      cases h1 : lookupChild ch c with
      | some child =>
        have := lookupChild_sizeOf ch c child h1
        exact ih child rest ps (by omega)
      | none =>
        cases h2 : lookupChild ch nps with
        | some pchild =>
          have := lookupChild_sizeOf ch nps pchild h2
          exact ih pchild _ _ (by omega)
        | none => rfl

/-- Fueled version of `buildTrie` (root node only), for kernel
evaluation. -/
def buildFuel (n : Nat) (patterns : List (List Nat)) : privTrieNode :=
  patterns.foldl (fun t p => insertFuel n t p) newPrivTrieNode

/-- With enough fuel for every pattern, `buildFuel` is the root of
`buildTrie`. -/
theorem buildTrie_eq_fuel (n : Nat) (ps : List (List Nat))
    (h : ∀ p ∈ ps, p.length ≤ n) : (buildTrie ps).root = buildFuel n ps := by
  suffices hgen : ∀ (l : List (List Nat)) (t : privTrieNode), (∀ p ∈ l, p.length ≤ n) →
      (l.foldl privTrie.Insert ⟨t⟩).root = l.foldl (fun u p => insertFuel n u p) t by
    exact hgen ps newPrivTrieNode h
  intro l
  induction l with
  | nil => intro t _; rfl
  | cons p l' ih =>
    intro t hl
    simp only [List.foldl_cons]
    have hp : p.length ≤ n := hl p (by simp)
    have : privTrie.Insert ⟨t⟩ p = ⟨insertFuel n t p⟩ := by
      simp [privTrie.Insert, insertAux_eq_fuel n t p hp]
    rw [this]
    exact ih (insertFuel n t p) (fun q hq => hl q (by simp [hq]))

theorem lookupChild_updateChild_self (l : List (Nat × privTrieNode)) (c : Nat) (u : privTrieNode) :
    lookupChild (updateChild l c u) c = some u := by
  induction l with
  | nil => simp [updateChild, lookupChild]
  | cons a r ih =>
    obtain ⟨k, t⟩ := a
    by_cases hk : k = c
    · simp [updateChild, hk, lookupChild]
    · simp [updateChild, hk, lookupChild, ih]

theorem lookupChild_updateChild_ne (l : List (Nat × privTrieNode)) (c c' : Nat) (u : privTrieNode)
    (h : c' ≠ c) : lookupChild (updateChild l c u) c' = lookupChild l c' := by
  induction l with
  | nil =>
    simp only [updateChild, lookupChild]
    rw [if_neg (fun hh => h hh.symm)]
  | cons a r ih =>
    obtain ⟨k, t⟩ := a
    by_cases hk : k = c
    · subst hk
      simp [updateChild, lookupChild, h, Ne.symm h]
    · simp [updateChild, hk, lookupChild, ih]

/-- The literal spine test: walking `cs` from `t` through literal children
only reaches a terminal node.  This is the situation `Search` is in when
every byte of the query has a literal child, as after inserting `cs`
itself. -/
def hasLit : privTrieNode → List Nat → Bool
  | .mk _ _ e, [] => e
  | .mk ch _ _, c :: rest =>
    match h : lookupChild ch c with
    | some child => hasLit child rest
    | none => false
termination_by t _ => sizeOf t
decreasing_by
  have := lookupChild_sizeOf ch c child h
  simp
  omega

/-- Literal precedence: when a literal spine for the whole query exists,
`Search` follows exactly that spine — the literal child is tried before
the parameter child at every node — and returns a match with the bindings
it started with. -/
theorem searchAux_of_hasLit : ∀ (cs : List Nat) (t : privTrieNode) (ps : Params),
    hasLit t cs = true → searchAux t cs ps = (true, ps) := by
  intro cs
  induction cs with
  | nil =>
    intro t ps h
    obtain ⟨ch, pk, e⟩ := t
    simp only [hasLit] at h
    simp [searchAux, h]
  | cons c rest ih =>
    intro t ps h
    obtain ⟨ch, pk, e⟩ := t
    simp only [hasLit] at h
    split at h
    · rename_i child hl
      simp only [searchAux]
      split
      · rename_i child2 hl2
        rw [hl] at hl2
        cases hl2
        exact ih child ps h
      · rename_i hl2
        rw [hl] at hl2
        exact Option.noConfusion hl2
    · exact absurd h (by simp)

/-- Inserting a pattern with no `:` byte creates a literal spine for it. -/
theorem hasLit_insertAux : ∀ (cs : List Nat) (t : privTrieNode),
    nps ∉ cs → hasLit (insertAux t cs) cs = true := by
  intro cs
  induction cs with
  | nil =>
    intro t _
    obtain ⟨ch, pk, e⟩ := t
    simp [insertAux, hasLit]
  | cons c rest ih =>
    intro t h
    obtain ⟨ch, pk, e⟩ := t
    have hc : c ≠ nps := fun hc => h (by simp [hc])
    simp only [insertAux, if_neg hc]
    simp only [hasLit]
    split
    · rename_i child2 hl2
      rw [lookupChild_updateChild_self] at hl2
      cases hl2
      exact ih _ (fun hr => h (by simp [hr]))
    · rename_i hl2
      rw [lookupChild_updateChild_self] at hl2
      exact Option.noConfusion hl2

/-- Inserting any further pattern preserves every literal spine: `Insert`
only adds children and never clears a terminal flag. -/
theorem hasLit_insertAux_mono : ∀ (cs : List Nat) (t : privTrieNode) (p : List Nat),
    hasLit t cs = true → hasLit (insertAux t p) cs = true := by
  intro cs
  induction cs with
  | nil =>
    intro t p h
    obtain ⟨ch, pk, e⟩ := t
    simp only [hasLit] at h
    cases p with
    | nil => simp [insertAux, hasLit]
    | cons d prest => simp [insertAux, hasLit, h]
  | cons c rest ih =>
    intro t p h
    obtain ⟨ch, pk, e⟩ := t
    simp only [hasLit] at h
    split at h
    · rename_i tc hl
      cases p with
      | nil =>
        simp only [insertAux]
        simp only [hasLit]
        split
        · rename_i child2 hl2
          rw [hl] at hl2
          cases hl2
          exact h
        · rename_i hl2
          rw [hl] at hl2
          exact Option.noConfusion hl2
      | cons d prest =>
        simp only [insertAux]
        simp only [hasLit]
        split
        · rename_i child2 hl2
          by_cases hdc : c = d
          · subst hdc
            rw [lookupChild_updateChild_self] at hl2
            cases hl2
            simp only [hl]
            exact ih tc _ h
          · rw [lookupChild_updateChild_ne ch d c _ hdc] at hl2
            rw [hl] at hl2
            cases hl2
            exact h
        · rename_i hl2
          by_cases hdc : c = d
          · subst hdc
            rw [lookupChild_updateChild_self] at hl2
            exact Option.noConfusion hl2
          · rw [lookupChild_updateChild_ne ch d c _ hdc] at hl2
            rw [hl] at hl2
            exact Option.noConfusion hl2
    · exact absurd h (by simp)

/-- Root-level view of `buildTrie`. -/
theorem buildTrie_root : ∀ (l : List (List Nat)) (t : privTrieNode),
    (l.foldl privTrie.Insert ⟨t⟩).root = l.foldl (fun u p => insertAux u p) t := by
  intro l
  induction l with
  | nil => intro t; rfl
  | cons p l' ih =>
    intro t
    simp only [List.foldl_cons]
    exact ih (insertAux t p)

/-- Folding further insertions preserves a literal spine. -/
theorem hasLit_foldl_mono : ∀ (l : List (List Nat)) (t : privTrieNode) (cs : List Nat),
    hasLit t cs = true → hasLit (l.foldl (fun u p => insertAux u p) t) cs = true := by
  intro l
  induction l with
  | nil => intro t cs h; exact h
  | cons p l' ih =>
    intro t cs h
    simp only [List.foldl_cons]
    exact ih _ _ (hasLit_insertAux_mono cs t p h)

/-- A colon-free pattern registered anywhere in the list has a literal
spine in the resulting trie. -/
theorem hasLit_build : ∀ (l : List (List Nat)) (t : privTrieNode) (cs : List Nat),
    cs ∈ l → nps ∉ cs → hasLit (l.foldl (fun u p => insertAux u p) t) cs = true := by
  intro l
  induction l with
  | nil => intro t cs h; simp at h
  | cons p l' ih =>
    intro t cs hmem hnc
    simp only [List.foldl_cons]
    rcases List.mem_cons.mp hmem with heq | hmem'
    · subst heq
      exact hasLit_foldl_mono l' _ cs (hasLit_insertAux cs t hnc)
    · exact ih _ cs hmem' hnc

/-- Evaluation helper: compute `privTrie.Search` on a concretely built
trie through the fueled twins. -/
theorem Search_eval (ps : List (List Nat)) (q : List Nat) (r : Bool × Params) (n m : Nat)
    (hn : ∀ p ∈ ps, p.length ≤ n) (hm : sizeOf (buildFuel n ps) ≤ m)
    (hv : searchFuel m (buildFuel n ps) q [] = some r) :
    privTrie.Search (buildTrie ps) q = r := by
  unfold privTrie.Search
  rw [buildTrie_eq_fuel n ps hn]
  exact Option.some.inj ((searchAux_eq_fuel m _ q [] hm).symm.trans hv)

/-- C1: for every trie containing both the literal route `/a/b` and the
parameterized route `/a/:x` (registered in any order, possibly among
other routes), `Search("/a/b")` matches the literal route — result
`true` with no parameter bindings — because the scan tries the literal
child for the current character before the parameter child at each
node. -/
theorem literal_beats_param (ps : List (List Nat))
    (hlit : bytes r"/a/b" ∈ ps) (hpar : bytes r"/a/:x" ∈ ps) :
    privTrie.Search (buildTrie ps) (bytes r"/a/b") = (true, []) := by
  unfold privTrie.Search buildTrie newPrivTrie
  rw [buildTrie_root]
  exact searchAux_of_hasLit _ _ _ (hasLit_build ps newPrivTrieNode _ hlit (by decide))

/-- Witness for C1 at the two-route trie of the claim. -/
theorem literal_beats_param_witness :
    bytes r"/a/b" ∈ [bytes r"/a/b", bytes r"/a/:x"] ∧
    bytes r"/a/:x" ∈ [bytes r"/a/b", bytes r"/a/:x"] ∧
    privTrie.Search (buildTrie [bytes r"/a/b", bytes r"/a/:x"]) (bytes r"/a/b") = (true, []) :=
  ⟨by decide, by decide, literal_beats_param [bytes r"/a/b", bytes r"/a/:x"] (by decide) (by decide)⟩

/-- C2: after inserting `/hello/:first/:last/info`, searching
`/hello/john/smith/info` matches with exactly the bindings
`first = "john"` and `last = "smith"`, bound in left-to-right order;
each parameter consumes the run of bytes up to (excluding) the next
separator. -/
theorem param_extraction :
    privTrie.Search (buildTrie [bytes r"/hello/:first/:last/info"])
      (bytes r"/hello/john/smith/info") =
      (true, [(bytes r"first", bytes r"john"), (bytes r"last", bytes r"smith")]) :=
  Search_eval _ _ _ 64 100000 (by decide) (by decide) (by decide)

/-- C4 counterexample: inserting `/x/:a/y` and then `/x/:b/y`, a matching
request binds its value under the FIRST inserted name `a`, not under the
most recently inserted name `b` — `Insert` sets `paramKey` only when it
creates the missing `:` child, so a later conflicting name does not
overwrite the earlier one. -/
theorem param_name_latest_wins_ce :
    privTrie.Search (buildTrie [bytes r"/x/:a/y", bytes r"/x/:b/y"]) (bytes r"/x/v/y") =
      (true, [(bytes r"a", bytes r"v")]) ∧
    ((true, [(bytes r"a", bytes r"v")]) : Bool × Params) ≠
      (true, [(bytes r"b", bytes r"v")]) :=
  ⟨Search_eval _ _ _ 64 100000 (by decide) (by decide) (by decide), by decide⟩

/-- C4 amended: when two patterns diverge only in the parameter name at
the same trie position, the FIRST inserted name wins — in either
insertion order, subsequent matches bind the value under the earliest
registered name. -/
theorem param_name_first_wins :
    privTrie.Search (buildTrie [bytes r"/x/:a/y", bytes r"/x/:b/y"]) (bytes r"/x/v/y") =
      (true, [(bytes r"a", bytes r"v")]) ∧
    privTrie.Search (buildTrie [bytes r"/x/:b/y", bytes r"/x/:a/y"]) (bytes r"/x/v/y") =
      (true, [(bytes r"b", bytes r"v")]) :=
  ⟨Search_eval _ _ _ 64 100000 (by decide) (by decide) (by decide),
   Search_eval _ _ _ 64 100000 (by decide) (by decide) (by decide)⟩

/-- C9: with both `/lorem/ipsum/dolor/sit/amet` and
`/lorem/ipsum/:page/sit/amet` registered (either order), searching
`/lorem/ipsum/dolphin/sit/amet` finds no match: the scan commits to the
literal children `d`, `o`, `l` and, on divergence at `p`, never falls
back to the parameter child of the earlier node. -/
theorem no_backtracking :
    privTrie.Search
        (buildTrie [bytes r"/lorem/ipsum/dolor/sit/amet", bytes r"/lorem/ipsum/:page/sit/amet"])
        (bytes r"/lorem/ipsum/dolphin/sit/amet") = (false, []) ∧
    privTrie.Search
        (buildTrie [bytes r"/lorem/ipsum/:page/sit/amet", bytes r"/lorem/ipsum/dolor/sit/amet"])
        (bytes r"/lorem/ipsum/dolphin/sit/amet") = (false, []) :=
  ⟨Search_eval _ _ _ 64 100000 (by decide) (by decide) (by decide),
   Search_eval _ _ _ 64 100000 (by decide) (by decide) (by decide)⟩

/-- C10: `Search` terminates on every trie built by `Insert` and every
input: the loop, mirrored step-for-step by `searchFuel` (which returns
`none` when its iteration budget runs out), always completes within
`sizeOf` of the trie iterations — every iteration descends into a child
node — and computes `privTrie.Search`. -/
theorem search_terminates (ps : List (List Nat)) (cs : List Nat) :
    searchFuel (sizeOf (buildTrie ps).root) (buildTrie ps).root cs [] =
      some (privTrie.Search (buildTrie ps) cs) :=
  searchAux_eq_fuel _ _ _ _ (Nat.le_refl _)

/-! ## The `Node`-list router of `middleware.go`

`middleware.go` keeps, per HTTP method, an ordered list of `Node` records
built by `handle` and scanned in registration order by `dispatcher`.
HTTP handlers are opaque to the router; they are modelled by `Nat`
identifiers.  Strings handled segment-wise are modelled as `List Char`
(the inputs of interest are ASCII). -/

/-- Character list of a Lean string literal. -/
def chars (s : String) : List Char := s.data

/-- Go `strings.Split(s, sep)` for a one-character separator. -/
def splitOnChar (sep : Char) : List Char → List (List Char)
  | [] => [[]]
  | c :: rest =>
    if c = sep then [] :: splitOnChar sep rest
    else
      match splitOnChar sep rest with
      | s :: ss => (c :: s) :: ss
      | [] => [[c]]

/-- Go `strings.Split(s, "/")`. -/
def splitSlash (l : List Char) : List (List Char) := splitOnChar '/' l

/-- Go `strings.Join(arr, "/")`. -/
def joinSlash : List (List Char) → List Char
  | [] => []
  | [s] => s
  | s :: rest => s ++ '/' :: joinSlash rest

/-- Go `middleware.go`: `Node` — a registered route.  The HTTP handler
(`dispatcher http.HandlerFunc`) is modelled by an opaque `Nat` identifier.
Go's `nil` slice `params` is modelled by the empty list: `handle` only
ever produces a `nil` or non-empty `params`, so the dispatcher's
`child.params == nil` test coincides with emptiness. -/
structure Node : Type where
  path : List Char
  params : List (List Char)
  numParams : Nat
  numSections : Nat
  dispatcher : Nat
  matchEverything : Bool
deriving DecidableEq

/-- Map read `m.nodes[method]` with its `ok` flag (`none` = absent). -/
def lookupNodes : List (String × List Node) → String → Option (List Node)
  | [], _ => none
  | (k, l) :: r, m => if k = m then some l else lookupNodes r m

/-- Go `m.nodes[method] = append(m.nodes[method], &node)`. -/
def appendNode : List (String × List Node) → String → Node → List (String × List Node)
  | [], m, n => [(m, [n])]
  | (k, l) :: r, m, n => if k = m then (k, l ++ [n]) :: r else (k, l) :: appendNode r m n

/-- Go `middleware.go`, `handle`, lines 396–425, section loop: empty
sections are skipped; a section longer than one character starting with
`:` contributes its remainder to `params`; every other section is kept in
`usable`.  Returns `(params, usable, numSections, numParams)`. -/
def handleParts : List (List Char) → List (List Char) × List (List Char) × Nat × Nat
  | [] => ([], [], 0, 0)
  | s :: rest =>
    match handleParts rest with
    | (ps, us, nsec, npar) =>
      if s = [] then (ps, us, nsec, npar)
      else if 1 < s.length ∧ s.headD ' ' = ':' then (s.tail :: ps, us, nsec + 1, npar + 1)
      else (ps, s :: us, nsec + 1, npar)

/-- Go `middleware.go`, `Middleware.handle(method, path, handle)`, lines
396–425: split the pattern on `/`, classify the sections, set
`node.path = "/" + strings.Join(usable, "/")` and append the node to the
method's list.  (The same section-classification loop also appears in
`methods.go`'s `handle`, lines 126–158, which additionally threads the
middleware chain around the handler.) -/
def handle (nodes : List (String × List Node)) (method : String) (path : List Char)
    (handler : Nat) : List (String × List Node) :=
  match handleParts (splitSlash path) with
  | (params, usable, nsec, npar) =>
    appendNode nodes method ⟨ '/' :: joinSlash usable, params, npar, nsec, handler, false⟩

/-- Go `middleware.go`, `urlParams`, lines 497–510: split the dynamic
tail on `/` and drop empty sections. -/
def urlParams (text : List Char) : List (List Char) :=
  (splitSlash text).filter (fun p => p != [])

/-- Go `middleware.go`, `remoteAddr`, lines 512–517:
`strings.Split(r.RemoteAddr, ":")[0]`. -/
def remoteAddr (addr : List Char) : List Char :=
  match splitOnChar ':' addr with
  | s :: _ => s
  | [] => []

/-- Go `middleware.go`, `inArray`, lines 519–531. -/
def inArray (haystack : List (List Char)) (needle : List Char) : Bool :=
  haystack.contains needle

/-- Outcome of one call to `dispatcher`: which HTTP error is written, or
which registered handler is invoked (with the context values bound for
it), or which not-found path is taken.  The constructors are mutually
exclusive: a `methodNotAllowed` dispatch invokes no application handler
and no not-found handler. -/
inductive Outcome : Type where
  | methodNotAllowed
  | badRequest
  | forbidden
  | handled (handler : Nat) (ctx : List (List Char × List Char))
  | notFoundCustom
  | notFoundDefault
deriving DecidableEq

/-- The fields of Go's `Middleware` struct read by `dispatcher`.  The
server-configuration fields (host, port, timeouts, logger, server
instance) play no part in dispatch and are omitted; `NotFound` records
whether a custom not-found handler is configured. -/
structure Middleware : Type where
  NotFound : Bool
  nodes : List (String × List Node)
  allowedAddresses : List (List Char)
  deniedAddresses : List (List Char)
  restrictionType : String

/-- Go `middleware.go`, `dispatcher`, lines 265–335 — the `children`
scan, in registration order.  `none` means the loop fell through.  (The
`ctx` zip mirrors Go's `for key, name := range child.params` read of
`params[key]`, in bounds because `child.numParams == len(params)` was
just checked and `handle` keeps `numParams = len(node.params)`.) -/
def dispatchLoop (urlPath : List Char) : List Node → Option Outcome
  | [] => none
  | child :: rest =>
    if child.path = urlPath ∧ child.params = [] then some (.handled child.dispatcher [])
    else if child.params = [] then dispatchLoop urlPath rest
    else
      let lendef := child.path.length
      let lenreq := urlPath.length
      if lendef ≥ lenreq then dispatchLoop urlPath rest
      else if child.path ≠ urlPath.take lendef then dispatchLoop urlPath rest
      else if child.matchEverything then some (.handled child.dispatcher [])
      else
        let params := urlParams (urlPath.drop lendef)
        if child.numParams ≠ params.length then dispatchLoop urlPath rest
        else some (.handled child.dispatcher (child.params.zip params))

/-- Go `middleware.go`, `Middleware.dispatcher`, lines 230–343: reject
with 405 when the method has no node list, with 400 when the path does
not start with `/`, with 403 on an IP restriction; otherwise scan the
method's nodes in order and fall back to the configured (or default)
not-found handler. -/
def dispatcher (m : Middleware) (method : String) (urlPath : List Char)
    (remote : List Char) : Outcome :=
  match lookupNodes m.nodes method with
  | none => .methodNotAllowed
  | some children =>
    if urlPath = [] ∨ urlPath.headD ' ' ≠ '/' then .badRequest
    else if m.restrictionType = r"AllowAccessExcept" ∧
        inArray m.deniedAddresses (remoteAddr remote) = true then .forbidden
    else if m.restrictionType = r"DenyAccessExcept" ∧
        ¬ inArray m.allowedAddresses (remoteAddr remote) = true then .forbidden
    else
      match dispatchLoop urlPath children with
      | some o => o
      | none => if m.NotFound then .notFoundCustom else .notFoundDefault

/-- C7: when no route table exists for the request's HTTP method,
`dispatcher` answers 405 Method Not Allowed — an outcome distinct from
every not-found outcome — and neither a registered handler nor a
not-found handler is invoked. -/
theorem method_not_allowed (m : Middleware) (method : String) (urlPath remote : List Char)
    (h : lookupNodes m.nodes method = none) :
    dispatcher m method urlPath remote = .methodNotAllowed := by
  unfold dispatcher
  rw [h]

/-- Witness for C7 on a router with no node lists at all. -/
theorem method_not_allowed_witness :
    lookupNodes (Middleware.mk false [] [] [] r"").nodes r"GET" = none ∧
    dispatcher (Middleware.mk false [] [] [] r"") r"GET" (chars r"/") [] =
      .methodNotAllowed :=
  ⟨rfl, method_not_allowed (Middleware.mk false [] [] [] r"") r"GET" (chars r"/") [] rfl⟩

/-- The router after registering the same literal pattern `/x` twice,
with handlers `h1` then `h2`, and no other configuration. -/
def mwTwice (h1 h2 : Nat) : Middleware :=
  ⟨false, handle (handle [] r"GET" (chars r"/x") h1) r"GET" (chars r"/x") h2, [], [], r""⟩

/-- C5 counterexample: registering the literal pattern `/x` twice with
handlers `1` then `2` and dispatching `/x` invokes handler `1` — the
FIRST registered one, not the later one: both registrations are appended
and the dispatcher returns on the first match in registration order. -/
theorem duplicate_route_latest_wins_ce :
    dispatcher (mwTwice 1 2) r"GET" (chars r"/x") [] = .handled 1 [] ∧
    Outcome.handled 1 [] ≠ Outcome.handled 2 [] :=
  ⟨by decide, by decide⟩

/-- C5 amended: registering the same literal pattern twice keeps both
nodes, and dispatching that path invokes the EARLIER-registered handler
(first-write-wins): the dispatcher scans nodes in registration order and
returns on the first literal match. -/
theorem duplicate_route_first_wins (h1 h2 : Nat) :
    dispatcher (mwTwice h1 h2) r"GET" (chars r"/x") [] = .handled h1 [] := by
  rfl

/-! ## The middleware composer (`Use` / `compose`) -/

/-- Go `compose(f, g)` from the host-router generation (`Use`'s file,
lines 117–121): `func(h http.Handler) http.Handler { return g(f(h)) }`.
The opaque `http.Handler` type is a type parameter `A`; a wrapper is a
function `A → A`. -/
def compose {A : Type} (f g : A → A) : A → A :=
  fun h => g (f h)

/-- Go `Middleware.Use(f)`, lines 152–159: the first wrapper becomes the
chain; every later wrapper `f` updates it to `compose(f, chain)`. -/
def Use {A : Type} (chain : Option (A → A)) (f : A → A) : Option (A → A) :=
  match chain with
  | none => some f
  | some g => some (compose f g)

/-- Applying the chain to a terminal handler, as `handle` does in
`methods.go` lines 130–134: `m.chain(handle)` when a chain exists,
otherwise the bare handler. -/
def applyChain {A : Type} (chain : Option (A → A)) (handler : A) : A :=
  match chain with
  | none => handler
  | some g => g handler

/-- C6: for wrappers registered in order `W1, W2, W3` via `Use` and a
terminal handler `H`, the composed callable is `W1(W2(W3(H)))` — the
first-registered wrapper is outermost, so the wrappers run in
registration order `W1, W2, W3` and then `H`. -/
theorem use_composes_in_order {A : Type} (W1 W2 W3 : A → A) (H : A) :
    applyChain (Use (Use (Use none W1) W2) W3) H = W1 (W2 (W3 H)) :=
  rfl

/-! ## The `endpoint`/`folder` router (`endpoint.go`) and Go's `path.Clean`

`parseEndpoint` splits `path.Clean(str)` on `/` into `folder` segments
(stopping at a `*`), and `endpoint.Match` checks a request's segment list
against them.  The request segment list is produced by the caller as
`strings.Split(path.Clean(rawURL), "/")` (see `TestEndpointMatch` in
`private_func_test.go`), modelled by `requestArr`. -/

/-- Go `type folder string` — one segment of an endpoint. -/
abbrev folder : Type := List Char

/-- Go `folder.IsParam`: `len(s) > 0 && s[0] == ':'`. -/
def folder.IsParam (s : folder) : Bool :=
  match s with
  | [] => false
  | c :: _ => c == ':'

/-- Go `folder.IsGlob`: `s == "*"`. -/
def folder.IsGlob (s : folder) : Bool :=
  s == [ '*' ]

/-- Go `folder.Name`: `string(s)[1:]` (only called after `IsParam`, so
the list is non-empty there; `tail` of `[]` is `[]`). -/
def folder.Name (s : folder) : List Char :=
  s.tail

/-- The backtracking scan of Go `path.Clean`'s `..` case: starting from
`w = len(out) - 1`, decrease `w` while `w > dotdot` and `out[w] != '/'`. -/
def shrinkW (out : List Char) (dd : Nat) (w : Nat) : Nat :=
  if h : dd < w ∧ out.getD w ' ' ≠ '/' then shrinkW out dd (w - 1) else w
termination_by w
decreasing_by
  omega

/-- Go `path.Clean`'s `..` backtrack on the output buffer: `out.w--`
followed by the `shrinkW` scan; the buffer is truncated to the final
write index. -/
def backtrack (out : List Char) (dd : Nat) : List Char :=
  out.take (shrinkW out dd (out.length - 1))

theorem length_dropWhile_cons_lt {α : Type} (p : α → Bool) (c : α) (rest : List α)
    (h : p c = true) : (List.dropWhile p (c :: rest)).length < rest.length + 1 := by
  simp only [List.dropWhile, h]
  exact Nat.lt_succ_of_le (length_dropWhile_le p rest)

/-- The main loop of Go `path.Clean` (package `path`), as invoked by
`parseEndpoint` and the `Match` callers: `out` is the output buffer
(`lazybuf`), `dd` the `dotdot` barrier, and the list argument the input
from the read cursor `r` on.  Cases, in order: skip a `/`; skip a `.`
ending a segment; handle `..` (backtrack above the barrier, or emit
`..` when the path is not rooted, or ignore); otherwise copy the segment
up to the next `/`, preceded by a `/` unless the buffer is at its start.
Each case consumes at least one input character, so the recursion is on
the input length. -/
def cleanLoop (rooted : Bool) (out : List Char) (dd : Nat) : List Char → List Char
  | [] => out
  | c :: rest =>
    if c = '/' then cleanLoop rooted out dd rest
    else if c = '.' ∧ (rest = [] ∨ rest.headD ' ' = '/') then cleanLoop rooted out dd rest
    else if c = '.' ∧ rest.headD ' ' = '.' ∧ (rest.length = 1 ∨ (rest.drop 1).headD ' ' = '/') then
      if dd < out.length then cleanLoop rooted (backtrack out dd) dd (rest.drop 1)
      else if rooted = false then
        cleanLoop rooted ((if 0 < out.length then out ++ [ '/' ] else out) ++ [ '.', '.' ])
          ((if 0 < out.length then out ++ [ '/' ] else out) ++ [ '.', '.' ]).length (rest.drop 1)
      else cleanLoop rooted out dd (rest.drop 1)
    else
      cleanLoop rooted
        ((if (rooted = true ∧ out.length ≠ 1) ∨ (rooted = false ∧ out.length ≠ 0)
            then out ++ [ '/' ] else out) ++ (c :: rest).takeWhile (fun a => a != '/'))
        dd ((c :: rest).dropWhile (fun a => a != '/'))
termination_by cs => cs.length
decreasing_by
  · simp
  · simp
  · simp only [List.length_cons, List.length_drop]
    omega
  · simp only [List.length_cons, List.length_drop]
    omega
  · simp only [List.length_cons, List.length_drop]
    omega
  · simp only [List.length_cons]
    apply length_dropWhile_cons_lt
    simp
    assumption

/-- Fuel-indexed twin of `cleanLoop` for kernel evaluation; the fuel
bounds the number of loop iterations. -/
def cleanFuel : Nat → Bool → List Char → Nat → List Char → List Char
  | _, _, out, _, [] => out
  | 0, _, out, _, _ :: _ => out
  | n + 1, rooted, out, dd, c :: rest =>
    if c = '/' then cleanFuel n rooted out dd rest
    else if c = '.' ∧ (rest = [] ∨ rest.headD ' ' = '/') then cleanFuel n rooted out dd rest
    else if c = '.' ∧ rest.headD ' ' = '.' ∧ (rest.length = 1 ∨ (rest.drop 1).headD ' ' = '/') then
      if dd < out.length then cleanFuel n rooted (backtrack out dd) dd (rest.drop 1)
      else if rooted = false then
        cleanFuel n rooted ((if 0 < out.length then out ++ [ '/' ] else out) ++ [ '.', '.' ])
          ((if 0 < out.length then out ++ [ '/' ] else out) ++ [ '.', '.' ]).length (rest.drop 1)
      else cleanFuel n rooted out dd (rest.drop 1)
    else
      cleanFuel n rooted
        ((if (rooted = true ∧ out.length ≠ 1) ∨ (rooted = false ∧ out.length ≠ 0)
            then out ++ [ '/' ] else out) ++ (c :: rest).takeWhile (fun a => a != '/'))
        dd ((c :: rest).dropWhile (fun a => a != '/'))

/-- With enough fuel for the input length, `cleanFuel` computes
`cleanLoop`. -/
theorem cleanLoop_eq_fuel : ∀ (n : Nat) (rooted : Bool) (out : List Char) (dd : Nat)
    (cs : List Char), cs.length ≤ n → cleanLoop rooted out dd cs = cleanFuel n rooted out dd cs := by
  intro n
  induction n with
  | zero =>
    intro rooted out dd cs h
    cases cs with
    | nil => simp [cleanLoop, cleanFuel]
    | cons c rest => simp at h
  | succ n ih =>
    intro rooted out dd cs h
    cases cs with
    | nil => simp [cleanLoop, cleanFuel]
    | cons c rest =>
      have hlen : rest.length ≤ n := by
        simp only [List.length_cons] at h
        omega
      simp only [cleanLoop, cleanFuel]
      by_cases h1 : c = '/'
      · rw [if_pos h1, if_pos h1]
        exact ih rooted out dd rest hlen
      · rw [if_neg h1, if_neg h1]
        by_cases h2 : c = '.' ∧ (rest = [] ∨ rest.headD ' ' = '/')
        · rw [if_pos h2, if_pos h2]
          exact ih rooted out dd rest hlen
        · rw [if_neg h2, if_neg h2]
          by_cases h3 : c = '.' ∧ rest.headD ' ' = '.' ∧
              (rest.length = 1 ∨ (rest.drop 1).headD ' ' = '/')
          · rw [if_pos h3, if_pos h3]
            have hlen1 : (rest.drop 1).length ≤ n := by
              simp only [List.length_drop]
              omega
            by_cases h4 : dd < out.length
            · rw [if_pos h4, if_pos h4]
              exact ih _ _ _ _ hlen1
            · rw [if_neg h4, if_neg h4]
              by_cases h5 : rooted = false
              · rw [if_pos h5, if_pos h5]
                exact ih _ _ _ _ hlen1
              · rw [if_neg h5, if_neg h5]
                exact ih _ _ _ _ hlen1
          · rw [if_neg h3, if_neg h3]
            apply ih
            have : ((c :: rest).dropWhile (fun a => a != '/')).length < rest.length + 1 :=
              length_dropWhile_cons_lt _ c rest (by simpa using h1)
            omega

/-- Go `path.Clean(path)`: empty input is `"."`; a rooted path starts the
buffer with `/`, read cursor `1` and `dotdot` barrier `1`; an empty
result becomes `"."`. -/
def cleanGo (p : List Char) : List Char :=
  if p = [] then [ '.' ]
  else if p.headD ' ' = '/' then
    if cleanLoop true [ '/' ] 1 (p.drop 1) = [] then [ '.' ]
    else cleanLoop true [ '/' ] 1 (p.drop 1)
  else
    if cleanLoop false [] 0 p = [] then [ '.' ]
    else cleanLoop false [] 0 p

/-- Fueled `cleanGo`. -/
def cleanFuelGo (n : Nat) (p : List Char) : List Char :=
  if p = [] then [ '.' ]
  else if p.headD ' ' = '/' then
    if cleanFuel n true [ '/' ] 1 (p.drop 1) = [] then [ '.' ]
    else cleanFuel n true [ '/' ] 1 (p.drop 1)
  else
    if cleanFuel n false [] 0 p = [] then [ '.' ]
    else cleanFuel n false [] 0 p

/-- With enough fuel for the input length, `cleanFuelGo` computes
`cleanGo`. -/
theorem cleanGo_eq_fuel (n : Nat) (p : List Char) (h : p.length ≤ n) :
    cleanGo p = cleanFuelGo n p := by
  unfold cleanGo cleanFuelGo
  rw [cleanLoop_eq_fuel n true [ '/' ] 1 (p.drop 1) (by simp; omega),
      cleanLoop_eq_fuel n false [] 0 p h]

/-- Go `endpoint` (`endpoint.go`): handler (opaque identifier), folder
list, level count and glob flag. -/
structure endpoint : Type where
  Handler : Nat
  Folders : List folder
  Levels : Nat
  HasGlob : Bool

/-- The registration loop of `parseEndpoint`: accumulate folders and
levels, stopping right after a `*` segment (which sets `HasGlob`). -/
def parseFolders : List (List Char) → List folder × Nat × Bool
  | [] => ([], 0, false)
  | seg :: rest =>
    if seg = [ '*' ] then ([seg], 1, true)
    else
      let (f, l, g) := parseFolders rest
      (seg :: f, l + 1, g)

/-- Go `parseEndpoint(str, fn)`: split `path.Clean(str)` on `/` and fold
the segments. -/
def parseEndpoint (str : List Char) (fn : Nat) : endpoint :=
  let (f, l, g) := parseFolders (splitSlash (cleanGo str))
  ⟨fn, f, l, g⟩

/-- Fueled `parseEndpoint`. -/
def parseEndpointFuel (n : Nat) (str : List Char) (fn : Nat) : endpoint :=
  let (f, l, g) := parseFolders (splitSlash (cleanFuelGo n str))
  ⟨fn, f, l, g⟩

theorem parseEndpoint_eq_fuel (n : Nat) (str : List Char) (fn : Nat) (h : str.length ≤ n) :
    parseEndpoint str fn = parseEndpointFuel n str fn := by
  unfold parseEndpoint parseEndpointFuel
  rw [cleanGo_eq_fuel n str h]

/-- The body of Go `endpoint.Match`'s folder loop: walk the folders with
index `i`, producing the collected parameters and the `matches` array.
An exact literal match marks the slot and continues; a parameter folder
binds `arr[i]` and marks the slot; a glob folder at `i > 0` marks the
slot and breaks (the remaining slots stay `false`, but a parsed endpoint
only ever has a glob as its last folder). -/
def matchFolders (arr : List (List Char)) : List folder → Nat →
    List (List Char × List Char) × List Bool
  | [], _ => ([], [])
  | sec :: rest, i =>
    if folder.IsParam sec = false ∧ folder.IsGlob sec = false ∧ sec = arr.getD i [] then
      let (ps, ms) := matchFolders arr rest (i + 1)
      (ps, true :: ms)
    else
      let pHere : List (List Char × List Char) :=
        if folder.IsParam sec = true then [(folder.Name sec, arr.getD i [])] else []
      if 0 < i ∧ folder.IsGlob sec = true then
        (pHere, true :: List.replicate rest.length false)
      else
        let (ps, ms) := matchFolders arr rest (i + 1)
        (pHere ++ ps, folder.IsParam sec :: ms)

/-- Go `endpoint.Match(arr)`, `endpoint.go` lines 121–179: reject when
the endpoint expects more folders than the request has, or when the
request is longer and the endpoint's last folder is not a glob; then run
the folder loop and require every `matches` slot to be `true`.  Go's
`(nil, false)` is `none`; `(params, true)` is `some params`. -/
def endpoint.Match (e : endpoint) (arr : List (List Char)) :
    Option (List (List Char × List Char)) :=
  if arr.length < e.Folders.length then none
  else if e.Folders.length < arr.length ∧
      folder.IsGlob (e.Folders.getD (e.Folders.length - 1) []) = false then none
  else
    let (ps, ms) := matchFolders arr e.Folders 0
    if ms.all (fun b => b) then some ps else none

/-- The request-side segment list
`strings.Split(path.Clean(rawURL), "/")` used by `Match`'s caller
(`TestEndpointMatch`, `private_func_test.go`). -/
def requestArr (raw : List Char) : List (List Char) :=
  splitSlash (cleanGo raw)

/-- Fueled `requestArr`. -/
def requestArrFuel (n : Nat) (raw : List Char) : List (List Char) :=
  splitSlash (cleanFuelGo n raw)

theorem requestArr_eq_fuel (n : Nat) (raw : List Char) (h : raw.length ≤ n) :
    requestArr raw = requestArrFuel n raw := by
  unfold requestArr requestArrFuel
  rw [cleanGo_eq_fuel n raw h]

/-- Evaluation helper for `endpoint.Match` on parsed endpoints and raw
request URLs, through the fueled twins. -/
theorem Match_eval (pat : List Char) (fn : Nat) (raw : List Char)
    (r : Option (List (List Char × List Char))) (n : Nat)
    (h1 : pat.length ≤ n) (h2 : raw.length ≤ n)
    (hv : endpoint.Match (parseEndpointFuel n pat fn) (requestArrFuel n raw) = r) :
    endpoint.Match (parseEndpoint pat fn) (requestArr raw) = r := by
  rw [parseEndpoint_eq_fuel n pat fn h1, requestArr_eq_fuel n raw h2]
  exact hv

/-- C3: the pattern `/images/*` matches every path extending the prefix
with at least one further segment — `/images/a.jpg`, `/images/sub/a.jpg`,
`/images/a/b/c/d.jpg` — but matches neither `/images` nor `/images/`
(the bare prefix is not part of the registered shape). -/
theorem wildcard_greediness :
    endpoint.Match (parseEndpoint (chars r"/images/*") 0) (requestArr (chars r"/images/a.jpg")) =
      some [] ∧
    endpoint.Match (parseEndpoint (chars r"/images/*") 0)
      (requestArr (chars r"/images/sub/a.jpg")) = some [] ∧
    endpoint.Match (parseEndpoint (chars r"/images/*") 0)
      (requestArr (chars r"/images/a/b/c/d.jpg")) = some [] ∧
    endpoint.Match (parseEndpoint (chars r"/images/*") 0) (requestArr (chars r"/images")) =
      none ∧
    endpoint.Match (parseEndpoint (chars r"/images/*") 0) (requestArr (chars r"/images/")) =
      none :=
  ⟨Match_eval _ _ _ _ 64 (by decide) (by decide) (by decide),
   Match_eval _ _ _ _ 64 (by decide) (by decide) (by decide),
   Match_eval _ _ _ _ 64 (by decide) (by decide) (by decide),
   Match_eval _ _ _ _ 64 (by decide) (by decide) (by decide),
   Match_eval _ _ _ _ 64 (by decide) (by decide) (by decide)⟩

/-- C8 counterexample: contrary to the claim that a bare `:` segment is
"a Literal with no parameter meaning", `folder.IsParam` classifies `":"`
as a parameter (its guard is `len(s) > 0`, not `> 1`), and
`endpoint.Match` accordingly lets the pattern `/a/:` match `/a/xyz`,
binding the value `"xyz"` under the empty parameter name. -/
theorem bare_colon_literal_ce :
    folder.IsParam (chars r":") = true ∧
    endpoint.Match (parseEndpoint (chars r"/a/:") 0) (requestArr (chars r"/a/xyz")) =
      some [([], chars r"xyz")] :=
  ⟨by decide, Match_eval _ _ _ _ 64 (by decide) (by decide) (by decide)⟩

theorem splitOnChar_no_sep (sep : Char) : ∀ l : List Char, sep ∉ l → splitOnChar sep l = [l] := by
  intro l
  induction l with
  | nil => intro _; rfl
  | cons c rest ih =>
    intro h
    have hc : ¬ c = sep := fun hh => h (by simp [hh])
    simp only [splitOnChar]
    rw [if_neg hc, ih (fun hm => h (by simp [hm]))]

/-- C8 amended: in `Middleware.handle` a section longer than one
character beginning with `:` becomes a dynamic parameter named by its
remainder (contributing no literal text to the node path), and a bare
`:` section is kept as literal text of the path with no parameter
recorded; `folder.IsParam`, however, classifies every section starting
with `:` — including the bare `:` — as a parameter. -/
theorem bare_colon_amended (name : List Char) (h : Nat)
    (hne : name ≠ []) (hns : ('/') ∉ name) :
    handle [] r"GET" ('/' :: ':' :: name) h =
      [(r"GET", [Node.mk [ '/' ] [name] 1 1 h false])] ∧
    handle [] r"GET" (chars r"/:") h =
      [(r"GET", [Node.mk (chars r"/:") [] 0 1 h false])] ∧
    folder.IsParam (chars r":") = true := by
  refine ⟨?_, by rfl, by decide⟩
  have hsp : splitOnChar '/' (':' :: name) = [(':') :: name] := by
    apply splitOnChar_no_sep
    intro hmem
    rcases List.mem_cons.mp hmem with hq | hq
    · exact absurd hq (by decide)
    · exact hns hq
  have hsplit : splitSlash ('/' :: ':' :: name) = [[], ':' :: name] := by
    have h1 : splitSlash ('/' :: ':' :: name) = [] :: splitOnChar '/' (':' :: name) := rfl
    rw [h1, hsp]
  have hinner : handleParts [(':') :: name] = ([name], [], 1, 1) := by
    have h0 : handleParts [(':') :: name] =
        (if (':') :: name = [] then (([], [], 0, 0) : List (List Char) × List (List Char) × Nat × Nat)
         else if 1 < ((':') :: name).length ∧ ((':') :: name).headD ' ' = ':' then
           ([name], [], 1, 1)
         else ([], [(':') :: name], 1, 0)) := rfl
    rw [h0, if_neg (by simp)]
    rw [if_pos ⟨by simp only [List.length_cons]; have := List.length_pos.mpr hne; omega, rfl⟩]
  have hp : handleParts [[], (':') :: name] = ([name], [], 1, 1) := by
    rw [show handleParts [[], (':') :: name] = handleParts [(':') :: name] from rfl, hinner]
  unfold handle
  rw [hsplit, hp]
  rfl

/-- Witness for C8's amended statement at `name = "id"`. -/
theorem bare_colon_amended_witness :
    chars r"id" ≠ [] ∧ ('/') ∉ chars r"id" ∧
    (handle [] r"GET" ('/' :: ':' :: chars r"id") 7 =
        [(r"GET", [Node.mk [ '/' ] [chars r"id"] 1 1 7 false])] ∧
      handle [] r"GET" (chars r"/:") 7 =
        [(r"GET", [Node.mk (chars r"/:") [] 0 1 7 false])] ∧
      folder.IsParam (chars r":") = true) :=
  ⟨by decide, by decide, bare_colon_amended (chars r"id") 7 (by decide) (by decide)⟩

end middleware
